import Mathlib

/-!
Verification of the Bravyi-Kitaev Super-Fast (BKSF) fermion-to-qubit mapper
(`qiskit_nature/mappers/second_quantization/bksf.py`).

The Python module is shallowly embedded here:
* complex coefficients become `CC` (exact rational real/imaginary parts);
* a qiskit `SparsePauliOp` becomes a list of weighted Pauli terms, each a
  coefficient together with boolean z- and x-vectors;
* numpy index arrays (`np.where`, `np.nonzero`) become index-accumulating
  recursions (`whereAux`, `colsAux`, `edgesAux`), and in-place assignments
  `v[positions] = 1` become folds of `List.set`;
* Python exceptions become `Except String`.
-/

/-- Complex numbers with exact rational parts.  The BKSF formulas only ever
multiply the input coefficient by `±1`, `±i` and powers of `1/2`, all of which
are exact, so rational parts model the Python complex arithmetic faithfully. -/
structure CC where
  re : ℚ
  im : ℚ
deriving DecidableEq, Repr

def CC.add (a b : CC) : CC := ⟨a.re + b.re, a.im + b.im⟩

def CC.mul (a b : CC) : CC := ⟨a.re * b.re - a.im * b.im, a.re * b.im + a.im * b.re⟩

def CC.neg (a : CC) : CC := ⟨-a.re, -a.im⟩

instance : Zero CC := ⟨⟨0, 0⟩⟩

instance : One CC := ⟨⟨1, 0⟩⟩

instance : Add CC := ⟨CC.add⟩

instance : Mul CC := ⟨CC.mul⟩

instance : Neg CC := ⟨CC.neg⟩

/-- One weighted Pauli string: a complex coefficient and the symplectic
(z, x) boolean vectors, one bit per qubit (qiskit `Pauli((z, x))` wrapped in a
single-term `SparsePauliOp`). -/
structure PauliTerm where
  coeff : CC
  z : List Bool
  x : List Bool
deriving DecidableEq, Repr

/-- A qiskit `SparsePauliOp`: a formal sum of weighted Pauli strings. -/
abbrev SPOp := List PauliTerm

def negPT (p : PauliTerm) : PauliTerm := ⟨p.coeff.neg, p.z, p.x⟩

def smulPT (c : CC) (p : PauliTerm) : PauliTerm := ⟨c.mul p.coeff, p.z, p.x⟩

def xorVec (a b : List Bool) : List Bool := List.zipWith xor a b

/-- Number of positions where both vectors are set. -/
def andCount (a b : List Bool) : Nat := (List.zipWith and a b).count true

/-- Product of two Pauli strings: `(Z^z1 X^x1)·(Z^z2 X^x2)` picks up a sign
`(-1)^(x1·z2)` when the X part of the left factor moves past the Z part of the
right factor. -/
def mulPT (p q : PauliTerm) : PauliTerm :=
  ⟨if andCount p.x q.z % 2 = 1 then (p.coeff.mul q.coeff).neg else p.coeff.mul q.coeff,
   xorVec p.z q.z, xorVec p.x q.x⟩

def negOp (a : SPOp) : SPOp := a.map negPT

def addOp (a b : SPOp) : SPOp := a ++ b

def subOp (a b : SPOp) : SPOp := a ++ negOp b

def smulOp (c : CC) (a : SPOp) : SPOp := a.map (smulPT c)

def mulOp : SPOp → SPOp → SPOp
  | [], _ => []
  | p :: ps, b => b.map (mulPT p) ++ mulOp ps b

/-- Python `_pauli_id(n_qubits)`: the `n`-qubit identity as a single Pauli term. -/
def _pauli_id (n_qubits : Nat) : SPOp :=
  [⟨1, List.replicate n_qubits false, List.replicate n_qubits false⟩]

/-- Indices (starting from `k`) of the entries of `es` satisfying `f`;
models one row scan of `np.where` over the `2×E` edge array. -/
def whereAux (f : Nat × Nat → Bool) : Nat → List (Nat × Nat) → List Nat
  | _, [] => []
  | k, e :: es => if f e then k :: whereAux f (k + 1) es else whereAux f (k + 1) es

/-- Set position `k` of a boolean vector (numpy `v[k] = 1`;
out-of-range writes cannot occur in the code paths exercised). -/
def setTrue (v : List Bool) (k : Nat) : List Bool := v.set k true

/-- Numpy `v[ks] = 1` for a list of positions. -/
def setAll (v : List Bool) (ks : List Nat) : List Bool := ks.foldl setTrue v

/-- Columns of the `2×E` edge array equal to `i`, row-major as `np.where`
returns them: all row-0 matches first, then all row-1 matches. -/
def wherePositions (es : List (Nat × Nat)) (i : Nat) : List Nat :=
  whereAux (fun e => e.1 == i) 0 es ++ whereAux (fun e => e.2 == i) 0 es

/-- Python `edge_operator_bi(edge_list, i)`: a `Z` at every edge position touching
mode `i` (`v[qubit_position] = 1`), no `X` part, coefficient `1`. -/
def edge_operator_bi (es : List (Nat × Nat)) (i : Nat) : SPOp :=
  [⟨1, setAll (List.replicate es.length false) (wherePositions es i),
    List.replicate es.length false⟩]

/-- One pass of the Z-vector loops of `edge_operator_aij`: positions of edges
touching mode `i` whose other endpoint is `< bound` (row-0 matches check the
row-1 entry and vice versa). -/
def aijZpositions (es : List (Nat × Nat)) (i bound : Nat) : List Nat :=
  whereAux (fun e => e.1 == i && decide (e.2 < bound)) 0 es ++
    whereAux (fun e => e.2 == i && decide (e.1 < bound)) 0 es

/-- Python `edge_operator_aij(edge_list, i, j)`.  `position_ij` is the first edge
whose endpoint set is `{i, j}`; when there is none the Python sentinel `-1`
is never checked and `w[-1] = 1` silently sets the *last* position, which the
`getD (es.length - 1)` fallback reproduces (for an empty edge list Python
raises `IndexError`; that case is outside every code path).  The X vector has
a single 1 at `position_ij`; the Z vector collects both incident-edge loops. -/
def edge_operator_aij (es : List (Nat × Nat)) (i j : Nat) : SPOp :=
  let E := es.length
  let position_ij :=
    (es.findIdx? (fun e => (i == e.1 && j == e.2) || (i == e.2 && j == e.1))).getD (E - 1)
  let w := setTrue (List.replicate E false) position_ij
  let v := setAll (setAll (List.replicate E false) (aijZpositions es i j))
    (aijZpositions es j i)
  [⟨1, v, w⟩]

/-- The complete 4-mode graph's edge list in row-major order, the fixture of
the spec's concrete scenarios 2 and 3 (and of the repository's tests). -/
def K4edges : List (Nat × Nat) := [(0, 1), (0, 2), (0, 3), (1, 2), (1, 3), (2, 3)]

/-- Formula `SW2018 eq 37`, `_double_excitation(edge_list, p, q, r, s, h2_pqrs)`:
`(0.125 * h) * (a_pq * a_rs) * (-I - bp*bq + bp*br + bp*bs + bq*br + bq*bs
- br*bs - bp*bq*br*bs)`, with `a_pq` negated when `q < p` and `a_rs` negated
when `s < r`.  The sum is associated exactly as the Python expression. -/
def _double_excitation (es : List (Nat × Nat)) (p q r s : Nat) (h2_pqrs : CC) : SPOp :=
  let b_p := edge_operator_bi es p
  let b_q := edge_operator_bi es q
  let b_r := edge_operator_bi es r
  let b_s := edge_operator_bi es s
  let a_pq0 := edge_operator_aij es p q
  let a_rs0 := edge_operator_aij es r s
  let a_pq := if q < p then negOp a_pq0 else a_pq0
  let a_rs := if s < r then negOp a_rs0 else a_rs0
  let id_op := _pauli_id es.length
  let qubit_op := mulOp (mulOp a_pq a_rs)
    (subOp
      (subOp
        (addOp
          (addOp
            (addOp
              (addOp (subOp (negOp id_op) (mulOp b_p b_q)) (mulOp b_p b_r))
              (mulOp b_p b_s))
            (mulOp b_q b_r))
          (mulOp b_q b_s))
        (mulOp b_r b_s))
      (mulOp (mulOp (mulOp b_p b_q) b_r) b_s))
  smulOp (CC.mul ⟨1/8, 0⟩ h2_pqrs) qubit_op

/-- Python `_number_excitation(edge_list, p, q, r, s, h2_pqrs)`: four shared-mode
branches (`p==r`, `p==s`, `q==r`, `q==s`, tested in this order) each producing
`(final_coeff * h) * (a*b + b*a) * (I - b_shared)` with `final_coeff` one of
`±i/4`; any other index pattern raises `ValueError`. -/
def _number_excitation (es : List (Nat × Nat)) (p q r s : Nat) (h2_pqrs : CC) :
    Except String SPOp :=
  let b_p := edge_operator_bi es p
  let b_q := edge_operator_bi es q
  let id_op := _pauli_id es.length
  if p = r then
    let b_s := edge_operator_bi es s
    let a0 := edge_operator_aij es q s
    let a_qs := if s < q then negOp a0 else a0
    .ok (smulOp (CC.mul ⟨0, 1/4⟩ h2_pqrs)
      (mulOp (addOp (mulOp a_qs b_s) (mulOp b_q a_qs)) (subOp id_op b_p)))
  else if p = s then
    let b_r := edge_operator_bi es r
    let a0 := edge_operator_aij es q r
    let a_qr := if r < q then negOp a0 else a0
    .ok (smulOp (CC.mul ⟨0, -(1/4)⟩ h2_pqrs)
      (mulOp (addOp (mulOp a_qr b_r) (mulOp b_q a_qr)) (subOp id_op b_p)))
  else if q = r then
    let b_s := edge_operator_bi es s
    let a0 := edge_operator_aij es p s
    let a_ps := if s < p then negOp a0 else a0
    .ok (smulOp (CC.mul ⟨0, -(1/4)⟩ h2_pqrs)
      (mulOp (addOp (mulOp a_ps b_s) (mulOp b_p a_ps)) (subOp id_op b_q)))
  else if q = s then
    let b_r := edge_operator_bi es r
    let a0 := edge_operator_aij es p r
    let a_pr := if r < p then negOp a0 else a0
    .ok (smulOp (CC.mul ⟨0, 1/4⟩ h2_pqrs)
      (mulOp (addOp (mulOp a_pr b_r) (mulOp b_p a_pr)) (subOp id_op b_q)))
  else .error "unexpected sequence of indices"

/-- Worker of `_unpack_term`: scans the characters left to right carrying the
next mode index, counting `N`/`+`/`-` and collecting `(index, kind)` factors;
`N` expands to `(i,'+'), (i,'-')` when `expand` is set.  A character outside
`I N + -` raises `ValueError`. -/
def unpackAux (expand : Bool) : Nat → List Char →
    Except String ((Nat × Nat × Nat) × List (Nat × Char))
  | _, [] => .ok ((0, 0, 0), [])
  | i, c :: rest =>
    if c = 'I' then unpackAux expand (i + 1) rest
    else if c = '+' then
      (unpackAux expand (i + 1) rest).map fun r =>
        ((r.1.1, r.1.2.1 + 1, r.1.2.2), (i, '+') :: r.2)
    else if c = '-' then
      (unpackAux expand (i + 1) rest).map fun r =>
        ((r.1.1, r.1.2.1, r.1.2.2 + 1), (i, '-') :: r.2)
    else if c = 'N' then
      (unpackAux expand (i + 1) rest).map fun r =>
        ((r.1.1 + 1, r.1.2.1, r.1.2.2),
          if expand then (i, '+') :: (i, '-') :: r.2 else (i, 'N') :: r.2)
    else .error "Unexpected operator in term."

/-- Python `_unpack_term(term_str, expand_number_op)`: counts of number-, raising- and
lowering-operators, and the factor list. -/
def _unpack_term (term : List Char) (expand_number_op : Bool) :
    Except String ((Nat × Nat × Nat) × List (Nat × Char)) :=
  unpackAux expand_number_op 0 term

/-- Python `_interaction_type(n_number, n_raise, n_lower)`: the interaction category
or `ValueError`, translated branch for branch (note: the `n_raise == 2 and
n_lower == 2` branch does not inspect `n_number`). -/
def _interaction_type (n_number n_raise n_lower : Nat) : Except String String :=
  if n_raise = 0 ∧ n_lower = 0 then
    if n_number = 1 then .ok "number"
    else if n_number = 2 then .ok "coulomb_exchange"
    else .error "unexpected number of number operators"
  else if n_raise = 1 ∧ n_lower = 1 then
    if n_number = 1 then .ok "number_excitation"
    else if n_number = 0 then .ok "excitation"
    else .error "unexpected number of number operators"
  else if n_raise = 2 ∧ n_lower = 2 then .ok "double_excitation"
  else .error "unexpected number of operators"

/-- Python `_analyze_term(term_str)`: interaction type and number-expanded factors. -/
def _analyze_term (term : List Char) : Except String (String × List (Nat × Char)) := do
  let (counts, facs) ← _unpack_term term true
  let ttype ← _interaction_type counts.1 counts.2.1 counts.2.2
  .ok (ttype, facs)

/-- Set entry `(r, c)` of a boolean matrix (`edge_matrix[r, c] = True`). -/
def setMat (m : List (List Bool)) (r c : Nat) : List (List Bool) :=
  m.set r ((m.getD r []).set c true)

/-- Entry `(r, c)` of a boolean matrix. -/
def matEntry (m : List (List Bool)) (r c : Nat) : Bool := (m.getD r []).getD c false

/-- Python `_add_one_edge(edge_matrix, i, j)`: normalize to `(min, max)` to keep the
upper-triangular structure; `i == j` raises `ValueError`. -/
def _add_one_edge (m : List (List Bool)) (i j : Nat) : Except String (List (List Bool)) :=
  if i < j then .ok (setMat m i j)
  else if j < i then .ok (setMat m j i)
  else .error "expecting i != j"

/-- Python `_add_edges_for_term(edge_matrix, term_str)`: one edge between the `+` and
`-` of an (number-)excitation term, an edge between the two `+`s and one
between the two `-`s of a double excitation, nothing otherwise.  The Python
`_add_one_edge(m, *inds)` call fails (`TypeError`) when an index list does not
have exactly two entries, which the wildcard branches model. -/
def _add_edges_for_term (m : List (List Bool)) (term : List Char) :
    Except String (List (List Bool)) := do
  let (counts, facs) ← _unpack_term term false
  let ttype ← _interaction_type counts.1 counts.2.1 counts.2.2
  if ttype = "excitation" ∨ ttype = "number_excitation" then
    let inds := facs.filterMap fun f => if f.2 = '+' ∨ f.2 = '-' then some f.1 else none
    match inds with
    | [a, b] => _add_one_edge m a b
    | _ => .error "wrong number or raising and lowering"
  else if ttype = "double_excitation" then
    let raise_inds := facs.filterMap fun f => if f.2 = '+' then some f.1 else none
    let lower_inds := facs.filterMap fun f => if f.2 = '-' then some f.1 else none
    match raise_inds, lower_inds with
    | [a, b], [c, d] => do
      let m1 ← _add_one_edge m a b
      _add_one_edge m1 c d
    | _, _ => .error "wrong number of raising or lowering operators"
  else .ok m

/-- Python `_get_adjacency_matrix(fer_op)`: an `n_modes × n_modes` boolean matrix,
`n_modes` being the length of the first term's operator string, accumulated
over all terms. -/
def _get_adjacency_matrix (terms : List (List Char)) : Except String (List (List Bool)) :=
  let n_modes := (terms.headD []).length
  terms.foldlM _add_edges_for_term
    (List.replicate n_modes (List.replicate n_modes false))

/-- Column indices (from `c`) of the `true` entries of one matrix row. -/
def colsAux : Nat → List Bool → List Nat
  | _, [] => []
  | c, b :: bs => if b then c :: colsAux (c + 1) bs else colsAux (c + 1) bs

/-- Row-major enumeration of the `true` entries of a boolean matrix
(`np.nonzero`), as `(row, column)` pairs. -/
def edgesAux : Nat → List (List Bool) → List (Nat × Nat)
  | _, [] => []
  | r, row :: rest => (colsAux 0 row).map (fun c => (r, c)) ++ edgesAux (r + 1) rest

/-- Numpy `np.asarray(np.nonzero(edge_matrix))` as a list of `(from, to)` columns. -/
def edgesOf (m : List (List Bool)) : List (Nat × Nat) := edgesAux 0 m

/-- Python `bksf_edge_list_fermionic_op(fer_op)`: the adjacency matrix's nonzero
entries in row-major order; position in this list is the qubit index. -/
def bksf_edge_list_fermionic_op (terms : List (List Char)) :
    Except String (List (Nat × Nat)) :=
  (_get_adjacency_matrix terms).map edgesOf

/-- Python `_to_physicist_index_order(facs)`: reorder four `(index, kind)` factors to
two raising then two lowering operators, returning the reordered factors and
the incurred phase; any other kind pattern (or factor count) raises
`ValueError`. -/
def _to_physicist_index_order (facs : List (Nat × Char)) :
    Except String (List (Nat × Char) × Int) :=
  match facs with
  | [f0, f1, f2, f3] =>
    if f0.2 = '+' ∧ f1.2 = '+' ∧ f2.2 = '-' ∧ f3.2 = '-' then .ok ([f0, f1, f2, f3], 1)
    else if f0.2 = '+' ∧ f1.2 = '-' ∧ f2.2 = '+' ∧ f3.2 = '-' then .ok ([f0, f2, f1, f3], -1)
    else if f0.2 = '+' ∧ f1.2 = '-' ∧ f2.2 = '-' ∧ f3.2 = '+' then .ok ([f0, f3, f1, f2], 1)
    else .error "unexpected sequence of operators"
  | _ => .error "unexpected sequence of operators"

/-- The Hermitian-conjugate-pair guard at the top of the `_convert_operators`
loop, as a predicate on the number-expanded factor list: skip when the first
factor is a lowering operator (`facs[0][1] == "-"`), or when the first two
factors share a mode (a leading number operator) and a third factor exists and
is a lowering operator.  For factor lists of length `< 2` whose head is not a
lowering operator Python would raise `IndexError` at `facs[1]`; every term the
loop classifies successfully yields at least two expanded factors, so that
case is unreachable and is mapped to `false` here. -/
def _convert_skips : List (Nat × Char) → Bool
  | [] => false
  | f0 :: rest =>
    if f0.2 = '-' then true
    else
      match rest with
      | [] => false
      | f1 :: rest2 =>
        if f0.1 = f1.1 then
          match rest2 with
          | f2 :: _ => decide (f2.2 = '-')
          | [] => false
        else false

/-- Conjugate of one single-mode operator symbol: swap `+` and `-`, fix the
self-adjoint `I` and `N`. -/
def flipc (c : Char) : Char := if c = '+' then '-' else if c = '-' then '+' else c

/-- Modelled from the spec: the operator string of the Hermitian conjugate of
a term (`FermionicOp.adjoint` lives outside `src/`).  Conjugation swaps each
creation and annihilation operator and fixes `I` and `N` (spec §4.5:
"a two-body or one-body fermionic term and its Hermitian conjugate both
appear as separate input terms"). -/
def conj_label (term : List Char) : List Char := term.map flipc

/-- Other endpoint of edge `e` as seen from mode `m` (spec §4.4: the edge's
"other endpoint"). -/
def otherEnd (e : Nat × Nat) (m : Nat) : Nat := if e.1 = m then e.2 else e.1

/-- The `(#N, #+, #-)` count triples of the spec §3 table: the only
combinations a one- or two-body electronic term can produce. -/
def validRows : List (Nat × Nat × Nat) := [(1, 0, 0), (2, 0, 0), (0, 1, 1), (1, 1, 1), (0, 2, 2)]

/-- The skip condition of claim C6 stated over the number-expanded factor
list: the first factor is a lowering operator, or the first two factors share
a mode index and there are more than two factors and the third is a lowering
operator. -/
def skipClaimProp (facs : List (Nat × Char)) : Prop :=
  (∃ f0, facs[0]? = some f0 ∧ f0.2 = '-') ∨
    (2 < facs.length ∧ ∃ f0 f1 f2, facs[0]? = some f0 ∧ facs[1]? = some f1 ∧
      facs[2]? = some f2 ∧ f0.1 = f1.1 ∧ f2.2 = '-')

/-- Counts `(#N, #+, #-)` of a term string, the pure counterpart of the
accumulation inside `_unpack_term` (characters outside `I N + -` count
nothing; on such strings `_unpack_term` errors out instead). -/
def countsOf : List Char → Nat × Nat × Nat
  | [] => (0, 0, 0)
  | c :: rest =>
    let r := countsOf rest
    if c = '+' then (r.1, r.2.1 + 1, r.2.2)
    else if c = '-' then (r.1, r.2.1, r.2.2 + 1)
    else if c = 'N' then (r.1 + 1, r.2.1, r.2.2)
    else r

/-- Factor list of a term string starting at mode index `i`, the pure
counterpart of the factor accumulation inside `_unpack_term`. -/
def facsOf (expand : Bool) : Nat → List Char → List (Nat × Char)
  | _, [] => []
  | i, c :: rest =>
    if c = 'I' then facsOf expand (i + 1) rest
    else if c = '+' then (i, '+') :: facsOf expand (i + 1) rest
    else if c = '-' then (i, '-') :: facsOf expand (i + 1) rest
    else if c = 'N' then
      if expand then (i, '+') :: (i, '-') :: facsOf expand (i + 1) rest
      else (i, 'N') :: facsOf expand (i + 1) rest
    else facsOf expand (i + 1) rest

/-- Only characters of the fermionic alphabet occur in the term string. -/
def validChars (t : List Char) : Prop := ∀ c ∈ t, c = 'I' ∨ c = '+' ∨ c = '-' ∨ c = 'N'

/-- Upper-triangular invariant of the adjacency matrix: set entries lie
strictly above the diagonal. -/
def UpperTri (m : List (List Bool)) : Prop := ∀ r c, matEntry m r c = true → r < c

theorem CC.mul_comm (a b : CC) : CC.mul a b = CC.mul b a := by
  unfold CC.mul
  congr 1 <;> ring

theorem setAll_length (ks : List Nat) (v : List Bool) : (setAll v ks).length = v.length := by
  induction ks generalizing v with
  | nil => rfl
  | cons a ks ih =>
    show (setAll (setTrue v a) ks).length = v.length
    rw [ih, setTrue, List.length_set]

theorem setAll_getElem? (ks : List Nat) (v : List Bool) (k : Nat) :
    (setAll v ks)[k]? = if k ∈ ks ∧ k < v.length then some true else v[k]? := by
  induction ks generalizing v with
  | nil => simp [setAll]
  | cons a ks ih =>
    show (setAll (setTrue v a) ks)[k]? = _
    rw [ih]
    simp only [setTrue, List.length_set, List.getElem?_set, List.mem_cons]
    by_cases h2 : k < v.length
    · by_cases h1 : k ∈ ks
      · simp [h1, h2]
      · by_cases h3 : a = k
        · simp [h1, h2, h3]
        · have h4 : ¬(k = a) := fun h => h3 h.symm
          simp [h1, h2, h3, h4]
    · have hnone : v[k]? = none := List.getElem?_eq_none (by omega)
      by_cases h3 : a = k
      · have h5 : ¬(a < v.length) := by omega
        simp [h2, h3, h5, hnone]
      · simp [h2, h3, hnone]

theorem whereAux_mem (f : Nat × Nat → Bool) (es : List (Nat × Nat)) :
    ∀ k m, m ∈ whereAux f k es ↔ ∃ d e, es[d]? = some e ∧ f e = true ∧ m = k + d := by
  induction es with
  | nil => intro k m; simp [whereAux]
  | cons e es ih =>
    intro k m
    constructor
    · intro hm
      by_cases hf : f e
      · rw [whereAux, if_pos hf] at hm
        rcases List.mem_cons.mp hm with h | h
        · exact ⟨0, e, by simp, hf, by omega⟩
        · rcases (ih (k + 1) m).mp h with ⟨d, e1, h1, h2, h3⟩
          exact ⟨d + 1, e1, by simpa using h1, h2, by omega⟩
      · rw [whereAux, if_neg hf] at hm
        rcases (ih (k + 1) m).mp hm with ⟨d, e1, h1, h2, h3⟩
        exact ⟨d + 1, e1, by simpa using h1, h2, by omega⟩
    · rintro ⟨d, e1, h1, h2, h3⟩
      cases d with
      | zero =>
        obtain rfl : e1 = e := by simpa using h1.symm
        obtain rfl : m = k := by omega
        rw [whereAux, if_pos h2]
        exact List.mem_cons_self _ _
      | succ d =>
        have hmem := (ih (k + 1) m).mpr ⟨d, e1, by simpa using h1, h2, by omega⟩
        rw [whereAux]
        by_cases hf : f e
        · rw [if_pos hf]; exact List.mem_cons_of_mem _ hmem
        · rw [if_neg hf]; exact hmem

theorem mem_wherePositions (es : List (Nat × Nat)) (i m : Nat) :
    m ∈ wherePositions es i ↔ ∃ e, es[m]? = some e ∧ (e.1 = i ∨ e.2 = i) := by
  rw [wherePositions, List.mem_append, whereAux_mem, whereAux_mem]
  constructor
  · rintro (⟨d, e, h1, h2, h3⟩ | ⟨d, e, h1, h2, h3⟩) <;> obtain rfl : d = m := by omega
    · exact ⟨e, h1, Or.inl (by simpa using h2)⟩
    · exact ⟨e, h1, Or.inr (by simpa using h2)⟩
  · rintro ⟨e, h1, h2 | h2⟩
    · exact Or.inl ⟨m, e, h1, by simp [h2], by omega⟩
    · exact Or.inr ⟨m, e, h1, by simp [h2], by omega⟩

theorem bi_z_spec (es : List (Nat × Nat)) (i : Nat) :
    setAll (List.replicate es.length false) (wherePositions es i) =
      es.map fun e => decide (e.1 = i ∨ e.2 = i) := by
  apply List.ext_getElem?
  intro k
  rw [setAll_getElem?]
  simp only [List.length_replicate, List.getElem?_replicate, List.getElem?_map]
  by_cases hk : k < es.length
  · obtain ⟨e, he⟩ : ∃ a, es[k]? = some a := ⟨_, List.getElem?_eq_getElem hk⟩
    rw [he]
    by_cases hc : e.1 = i ∨ e.2 = i
    · have hmem : k ∈ wherePositions es i := (mem_wherePositions es i k).mpr ⟨e, he, hc⟩
      simp [hmem, hk, hc]
    · have hmem : k ∉ wherePositions es i := by
        intro h
        rcases (mem_wherePositions es i k).mp h with ⟨e2, h1, h2⟩
        rw [he] at h1
        exact hc (by cases h1; exact h2)
      push_neg at hc
      simp [hmem, hk, hc.1, hc.2]
  · rw [List.getElem?_eq_none (l := es) (by omega)]
    simp [hk]

/-- C2: for every edge list and mode `i`, `edge_operator_bi` returns the single
Pauli term whose z-vector has a 1 at exactly the positions of edges incident to
`i` and whose x-vector is all zero, both vectors of length exactly
`E = es.length` (independent of the mode count), with coefficient `1`; on the
complete 4-mode graph with row-major edge order, `B(0)` is `Z` at qubit
positions `{0,1,2}` and `B(3)` is `Z` at `{2,4,5}`. -/
theorem bi_edge_operator_spec :
    (∀ (es : List (Nat × Nat)) (i : Nat),
        edge_operator_bi es i =
          [⟨1, es.map fun e => decide (e.1 = i ∨ e.2 = i), List.replicate es.length false⟩]) ∧
    (∀ (es : List (Nat × Nat)) (i : Nat),
        (edge_operator_bi es i).map (fun t => (t.coeff, t.z.length, t.x.length)) =
          [(1, es.length, es.length)]) ∧
    edge_operator_bi K4edges 0 =
      [⟨1, [true, true, true, false, false, false], List.replicate 6 false⟩] ∧
    edge_operator_bi K4edges 3 =
      [⟨1, [false, false, true, false, true, true], List.replicate 6 false⟩] := by
  refine ⟨fun es i => ?_, fun es i => ?_, by decide, by decide⟩
  · unfold edge_operator_bi
    rw [bi_z_spec]
  · unfold edge_operator_bi
    simp [setAll_length]

/-- C7 (evidence): the five table rows of the interaction classifier return
the claimed categories, but the combination `(#N, #+, #-) = (1, 2, 2)` — which
the claim and the function's own documentation say must be a fatal error — is
also accepted and classified as a double excitation, because the
`n_raise == 2 and n_lower == 2` branch never inspects `n_number`. -/
theorem interaction_type_table :
    _interaction_type 1 0 0 = .ok "number" ∧
    _interaction_type 2 0 0 = .ok "coulomb_exchange" ∧
    _interaction_type 0 1 1 = .ok "excitation" ∧
    _interaction_type 1 1 1 = .ok "number_excitation" ∧
    _interaction_type 0 2 2 = .ok "double_excitation" ∧
    _interaction_type 1 2 2 = .ok "double_excitation" :=
  ⟨rfl, rfl, rfl, rfl, rfl, rfl⟩

/-- C8 (evidence): requesting the edge operator `A(0,2)` on the edge list
`[(0,1),(2,3)]`, in which `(0,2)` is *not* an edge, does not fail: the unchecked
`position_ij = -1` sentinel makes `w[-1] = 1` silently set the X bit of the
last qubit, so the call returns the well-formed Pauli term `X` at position 1,
`Z` at position 0, instead of raising an error. -/
theorem aij_missing_edge_returns :
    edge_operator_aij [(0, 1), (2, 3)] 0 2 = [⟨1, [true, false], [false, true]⟩] := by
  decide

/-- C5: on an index-ascending 4-factor list, the physicist-order reordering
maps kind pattern `(+,+,-,-)` to the unchanged list with phase `+1`,
`(+,-,+,-)` to `[f0,f2,f1,f3]` with phase `-1`, `(+,-,-,+)` to `[f0,f3,f1,f2]`
with phase `+1` — each result listing the two creation factors mode-ascending
followed by the two annihilation factors mode-ascending — and raises a fatal
error on every other kind pattern. -/
theorem to_physicist_order_spec :
    ∀ (a b c d : Nat × Char), a.1 < b.1 → b.1 < c.1 → c.1 < d.1 →
      ((a.2 = '+' ∧ b.2 = '+' ∧ c.2 = '-' ∧ d.2 = '-') →
        _to_physicist_index_order [a, b, c, d] = .ok ([a, b, c, d], 1) ∧
          a.1 < b.1 ∧ c.1 < d.1) ∧
      ((a.2 = '+' ∧ b.2 = '-' ∧ c.2 = '+' ∧ d.2 = '-') →
        _to_physicist_index_order [a, b, c, d] = .ok ([a, c, b, d], -1) ∧
          a.1 < c.1 ∧ b.1 < d.1) ∧
      ((a.2 = '+' ∧ b.2 = '-' ∧ c.2 = '-' ∧ d.2 = '+') →
        _to_physicist_index_order [a, b, c, d] = .ok ([a, d, b, c], 1) ∧
          a.1 < d.1 ∧ b.1 < c.1) ∧
      (¬(a.2 = '+' ∧ b.2 = '+' ∧ c.2 = '-' ∧ d.2 = '-') →
        ¬(a.2 = '+' ∧ b.2 = '-' ∧ c.2 = '+' ∧ d.2 = '-') →
        ¬(a.2 = '+' ∧ b.2 = '-' ∧ c.2 = '-' ∧ d.2 = '+') →
        _to_physicist_index_order [a, b, c, d] =
          .error "unexpected sequence of operators") := by
  intro a b c d h1 h2 h3
  refine ⟨fun hk => ⟨?_, h1, h3⟩, fun hk => ⟨?_, by omega, by omega⟩,
    fun hk => ⟨?_, by omega, by omega⟩, fun hn1 hn2 hn3 => ?_⟩
  · simp only [_to_physicist_index_order]
    rw [if_pos hk]
  · obtain ⟨k1, k2, k3, k4⟩ := hk
    simp only [_to_physicist_index_order]
    rw [if_neg (by simp [k2]), if_pos ⟨k1, k2, k3, k4⟩]
  · obtain ⟨k1, k2, k3, k4⟩ := hk
    simp only [_to_physicist_index_order]
    rw [if_neg (by simp [k2]), if_neg (by simp [k3]), if_pos ⟨k1, k2, k3, k4⟩]
  · simp only [_to_physicist_index_order]
    rw [if_neg hn1, if_neg hn2, if_neg hn3]

/-- Witness for C5: the `(+,-,+,-)` pattern on the factors
`(0,+),(1,-),(2,+),(3,-)` is permuted to `(0,+),(2,+),(1,-),(3,-)` with
phase `-1`. -/
theorem to_physicist_order_spec_witness :
    _to_physicist_index_order [(0, '+'), (1, '-'), (2, '+'), (3, '-')] =
      .ok ([(0, '+'), (2, '+'), (1, '-'), (3, '-')], -1) :=
  ((to_physicist_order_spec (0, '+') (1, '-') (2, '+') (3, '-')
    (by decide) (by decide) (by decide)).2.1 ⟨rfl, rfl, rfl, rfl⟩).1

/-- C3: for every edge list, physicist-ordered quadruple `(p,q,r,s)` and
coefficient `h`, the double-excitation conversion equals `(h/8)` times
`A(p,q)·A(r,s)` — with `A(p,q)` negated exactly when `q < p` and `A(r,s)`
negated exactly when `s < r` — times
`−I − BpBq + BpBr + BpBs + BqBr + BqBs − BrBs − BpBqBrBs`. -/
theorem double_excitation_formula (es : List (Nat × Nat)) (p q r s : Nat) (h : CC) :
    _double_excitation es p q r s h =
      smulOp (CC.mul h ⟨1/8, 0⟩)
        (mulOp
          (mulOp (if q < p then negOp (edge_operator_aij es p q) else edge_operator_aij es p q)
            (if s < r then negOp (edge_operator_aij es r s) else edge_operator_aij es r s))
          (subOp
            (subOp
              (addOp
                (addOp
                  (addOp
                    (addOp
                      (subOp (negOp (_pauli_id es.length))
                        (mulOp (edge_operator_bi es p) (edge_operator_bi es q)))
                      (mulOp (edge_operator_bi es p) (edge_operator_bi es r)))
                    (mulOp (edge_operator_bi es p) (edge_operator_bi es s)))
                  (mulOp (edge_operator_bi es q) (edge_operator_bi es r)))
                (mulOp (edge_operator_bi es q) (edge_operator_bi es s)))
              (mulOp (edge_operator_bi es r) (edge_operator_bi es s)))
            (mulOp
              (mulOp (mulOp (edge_operator_bi es p) (edge_operator_bi es q))
                (edge_operator_bi es r))
              (edge_operator_bi es s)))) := by
  simp only [_double_excitation]
  rw [CC.mul_comm]

/-- C4: for quadruples with exactly one shared-mode equality the
number-excitation conversion returns `(A·B_third + B_other·A)·(I − B_shared)`
scaled by `+i·h/4` (p=r), `−i·h/4` (p=s), `−i·h/4` (q=r), `+i·h/4` (q=s),
where `A` is built from the two non-shared modes and negated when its
arguments were supplied out of ascending order; with no equality it raises a
fatal error. -/
theorem number_excitation_spec (es : List (Nat × Nat)) (p q r s : Nat) (h : CC) :
    ((p = r ∧ p ≠ s ∧ q ≠ r ∧ q ≠ s) →
      _number_excitation es p q r s h =
        .ok (smulOp (CC.mul ⟨0, 1/4⟩ h)
          (mulOp
            (addOp
              (mulOp
                (if s < q then negOp (edge_operator_aij es q s) else edge_operator_aij es q s)
                (edge_operator_bi es s))
              (mulOp (edge_operator_bi es q)
                (if s < q then negOp (edge_operator_aij es q s) else edge_operator_aij es q s)))
            (subOp (_pauli_id es.length) (edge_operator_bi es p))))) ∧
    ((p = s ∧ p ≠ r ∧ q ≠ r ∧ q ≠ s) →
      _number_excitation es p q r s h =
        .ok (smulOp (CC.mul ⟨0, -(1/4)⟩ h)
          (mulOp
            (addOp
              (mulOp
                (if r < q then negOp (edge_operator_aij es q r) else edge_operator_aij es q r)
                (edge_operator_bi es r))
              (mulOp (edge_operator_bi es q)
                (if r < q then negOp (edge_operator_aij es q r) else edge_operator_aij es q r)))
            (subOp (_pauli_id es.length) (edge_operator_bi es p))))) ∧
    ((q = r ∧ p ≠ r ∧ p ≠ s ∧ q ≠ s) →
      _number_excitation es p q r s h =
        .ok (smulOp (CC.mul ⟨0, -(1/4)⟩ h)
          (mulOp
            (addOp
              (mulOp
                (if s < p then negOp (edge_operator_aij es p s) else edge_operator_aij es p s)
                (edge_operator_bi es s))
              (mulOp (edge_operator_bi es p)
                (if s < p then negOp (edge_operator_aij es p s) else edge_operator_aij es p s)))
            (subOp (_pauli_id es.length) (edge_operator_bi es q))))) ∧
    ((q = s ∧ p ≠ r ∧ p ≠ s ∧ q ≠ r) →
      _number_excitation es p q r s h =
        .ok (smulOp (CC.mul ⟨0, 1/4⟩ h)
          (mulOp
            (addOp
              (mulOp
                (if r < p then negOp (edge_operator_aij es p r) else edge_operator_aij es p r)
                (edge_operator_bi es r))
              (mulOp (edge_operator_bi es p)
                (if r < p then negOp (edge_operator_aij es p r) else edge_operator_aij es p r)))
            (subOp (_pauli_id es.length) (edge_operator_bi es q))))) ∧
    ((p ≠ r ∧ p ≠ s ∧ q ≠ r ∧ q ≠ s) →
      _number_excitation es p q r s h = .error "unexpected sequence of indices") := by
  refine ⟨?_, ?_, ?_, ?_, ?_⟩
  · rintro ⟨rfl, hn1, hn2, hn3⟩
    simp only [_number_excitation]
    simp
  · rintro ⟨rfl, hn1, hn2, hn3⟩
    simp only [_number_excitation]
    rw [if_neg hn1]
    simp
  · rintro ⟨rfl, hn1, hn2, hn3⟩
    simp only [_number_excitation]
    rw [if_neg hn1, if_neg hn2]
    simp
  · rintro ⟨rfl, hn1, hn2, hn3⟩
    simp only [_number_excitation]
    rw [if_neg hn1, if_neg hn2, if_neg hn3]
    simp
  · rintro ⟨hn1, hn2, hn3, hn4⟩
    simp only [_number_excitation]
    rw [if_neg hn1, if_neg hn2, if_neg hn3, if_neg hn4]

/-- Witness for C4: the shared mode `p = r = 0` with `(q, s) = (1, 2)` on the
complete 4-mode graph produces the `+i·h/4` formula, and the all-distinct
quadruple `(0,1,2,3)` produces the fatal error. -/
theorem number_excitation_spec_witness :
    _number_excitation K4edges 0 1 0 2 ⟨1, 0⟩ =
      .ok (smulOp (CC.mul ⟨0, 1/4⟩ ⟨1, 0⟩)
        (mulOp
          (addOp
            (mulOp
              (if 2 < 1 then negOp (edge_operator_aij K4edges 1 2)
                else edge_operator_aij K4edges 1 2)
              (edge_operator_bi K4edges 2))
            (mulOp (edge_operator_bi K4edges 1)
              (if 2 < 1 then negOp (edge_operator_aij K4edges 1 2)
                else edge_operator_aij K4edges 1 2)))
          (subOp (_pauli_id K4edges.length) (edge_operator_bi K4edges 0)))) ∧
    _number_excitation K4edges 0 1 2 3 ⟨1, 0⟩ = .error "unexpected sequence of indices" :=
  ⟨(number_excitation_spec K4edges 0 1 0 2 ⟨1, 0⟩).1
      ⟨rfl, by decide, by decide, by decide⟩,
    (number_excitation_spec K4edges 0 1 2 3 ⟨1, 0⟩).2.2.2.2
      ⟨by decide, by decide, by decide, by decide⟩⟩

theorem mem_aijZpositions (es : List (Nat × Nat)) (i bound m : Nat) :
    m ∈ aijZpositions es i bound ↔
      ∃ e, es[m]? = some e ∧ ((e.1 = i ∧ e.2 < bound) ∨ (e.2 = i ∧ e.1 < bound)) := by
  rw [aijZpositions, List.mem_append, whereAux_mem, whereAux_mem]
  constructor
  · rintro (⟨d, e, h1, h2, h3⟩ | ⟨d, e, h1, h2, h3⟩) <;> obtain rfl : d = m := by omega
    · exact ⟨e, h1, Or.inl (by simpa using h2)⟩
    · exact ⟨e, h1, Or.inr (by simpa using h2)⟩
  · rintro ⟨e, h1, h2 | h2⟩
    · exact Or.inl ⟨m, e, h1, by simp [h2.1, h2.2], by omega⟩
    · exact Or.inr ⟨m, e, h1, by simp [h2.1, h2.2], by omega⟩

theorem aij_z_spec (es : List (Nat × Nat)) (i j : Nat) :
    setAll (setAll (List.replicate es.length false) (aijZpositions es i j))
        (aijZpositions es j i) =
      es.map fun e => decide (((e.1 = i ∧ e.2 < j) ∨ (e.2 = i ∧ e.1 < j)) ∨
        ((e.1 = j ∧ e.2 < i) ∨ (e.2 = j ∧ e.1 < i))) := by
  apply List.ext_getElem?
  intro k
  rw [setAll_getElem?, setAll_getElem?]
  simp only [setAll_length, List.length_replicate, List.getElem?_replicate, List.getElem?_map]
  by_cases hk : k < es.length
  · obtain ⟨e, he⟩ : ∃ a, es[k]? = some a := ⟨_, List.getElem?_eq_getElem hk⟩
    rw [he]
    have hm1 : k ∈ aijZpositions es i j ↔ ((e.1 = i ∧ e.2 < j) ∨ (e.2 = i ∧ e.1 < j)) := by
      rw [mem_aijZpositions]
      constructor
      · rintro ⟨e2, h1, h2⟩
        rw [he] at h1
        cases h1
        exact h2
      · intro h2
        exact ⟨e, he, h2⟩
    have hm2 : k ∈ aijZpositions es j i ↔ ((e.1 = j ∧ e.2 < i) ∨ (e.2 = j ∧ e.1 < i)) := by
      rw [mem_aijZpositions]
      constructor
      · rintro ⟨e2, h1, h2⟩
        rw [he] at h1
        cases h1
        exact h2
      · intro h2
        exact ⟨e, he, h2⟩
    by_cases hc1 : (e.1 = i ∧ e.2 < j) ∨ (e.2 = i ∧ e.1 < j) <;>
      by_cases hc2 : (e.1 = j ∧ e.2 < i) ∨ (e.2 = j ∧ e.1 < i) <;>
        simp [hm1, hm2, hc1, hc2, hk] <;> omega
  · rw [List.getElem?_eq_none (l := es) (by omega)]
    simp [hk]

theorem findIdx?_first (p : Nat × Nat → Bool) :
    ∀ (l : List (Nat × Nat)) (k s : Nat) (a : Nat × Nat),
      l[k]? = some a → p a = true →
      (∀ m b, m < k → l[m]? = some b → p b = false) →
      List.findIdx? p l s = some (s + k) := by
  intro l
  induction l with
  | nil => intro k s a h; simp at h
  | cons c t ih =>
    intro k s a ha hp hmin
    cases k with
    | zero =>
      obtain rfl : a = c := by simpa using ha.symm
      rw [List.findIdx?_cons, if_pos hp]
      simp
    | succ k =>
      have hc : p c = false := hmin 0 c (by omega) (by simp)
      rw [List.findIdx?_cons, if_neg (by simp [hc])]
      have hrec := ih k (s + 1) a (by simpa using ha) hp
        (fun m b hm hb => hmin (m + 1) b (by omega) (by simpa using hb))
      rw [hrec]
      exact congrArg some (by omega)

theorem aij_zbit_claim (i j : Nat) (e : Nat × Nat) :
    decide (((e.1 = i ∧ e.2 < j) ∨ (e.2 = i ∧ e.1 < j)) ∨
        ((e.1 = j ∧ e.2 < i) ∨ (e.2 = j ∧ e.1 < i))) =
      decide (((e.1 = i ∨ e.2 = i) ∧ otherEnd e i < j) ∨
        ((e.1 = j ∨ e.2 = j) ∧ otherEnd e j < i)) := by
  rw [decide_eq_decide]
  rcases e with ⟨a, b⟩
  simp only [otherEnd]
  split_ifs <;> omega

theorem setTrue_replicate_eq_map (E k : Nat) (hk : k < E) :
    setTrue (List.replicate E false) k = (List.range E).map fun m => decide (m = k) := by
  apply List.ext_getElem?
  intro n
  simp only [setTrue, List.getElem?_set, List.length_replicate, List.getElem?_replicate,
    List.getElem?_map]
  by_cases hn : n < E
  · rw [List.getElem?_range hn]
    by_cases hkn : k = n
    · simp [hkn, hn, hk]
    · have h2 : ¬(n = k) := fun h => hkn h.symm
      simp [hkn, hn, h2]
  · rw [List.getElem?_eq_none (l := List.range E) (by simpa using hn)]
    have h2 : ¬(k = n) := by omega
    simp [h2, hn]

/-- C1 (amended): for every well-formed edge list (normalized, duplicate-free)
and every pair of modes `(i,j)` that is the edge at position `k`, the edge
operator `A(i,j)` is the single Pauli term, with coefficient `1`, whose
x-vector has its only 1 at position `k` and whose z-vector marks exactly the
edges incident to `i` with other endpoint strictly below `j` and the edges
incident to `j` with other endpoint strictly below `i` (both vectors of length
`E`); on the complete 4-mode graph, `A(0,1)` is `X` at qubit 0 and identity
elsewhere, and `A(2,3)` is `X` at qubit 5 with `Z` at qubits 1, 2, 3 and 4. -/
theorem aij_edge_operator_spec :
    (∀ (es : List (Nat × Nat)) (i j k : Nat) (e : Nat × Nat),
        (∀ f ∈ es, f.1 < f.2) → es.Nodup → es[k]? = some e →
        ((e.1 = i ∧ e.2 = j) ∨ (e.1 = j ∧ e.2 = i)) →
        edge_operator_aij es i j =
          [⟨1,
            es.map fun f => decide (((f.1 = i ∨ f.2 = i) ∧ otherEnd f i < j) ∨
              ((f.1 = j ∨ f.2 = j) ∧ otherEnd f j < i)),
            (List.range es.length).map fun m => decide (m = k)⟩]) ∧
    edge_operator_aij K4edges 0 1 =
      [⟨1, List.replicate 6 false, [true, false, false, false, false, false]⟩] ∧
    edge_operator_aij K4edges 2 3 =
      [⟨1, [false, true, true, true, true, false],
        [false, false, false, false, false, true]⟩] := by
  refine ⟨?_, by decide, by decide⟩
  intro es i j k e hwf hnd hk hij
  have hklen : k < es.length := by
    by_contra hh
    rw [List.getElem?_eq_none (by omega)] at hk
    exact absurd hk (by simp)
  have hfind :
      es.findIdx? (fun f => (i == f.1 && j == f.2) || (i == f.2 && j == f.1)) = some k := by
    have h0 : ((i == e.1 && j == e.2) || (i == e.2 && j == e.1)) = true := by
      rcases hij with ⟨h5, h6⟩ | ⟨h5, h6⟩ <;> simp [h5, h6]
    have hmin : ∀ m b, m < k → es[m]? = some b →
        ((i == b.1 && j == b.2) || (i == b.2 && j == b.1)) = false := by
      intro m b hm hb
      by_contra hpb
      have hmatch : (i = b.1 ∧ j = b.2) ∨ (i = b.2 ∧ j = b.1) := by
        rcases Bool.or_eq_true_iff.mp (Bool.not_eq_false _ |>.mp hpb) with hx | hx
        · exact Or.inl (by simpa using hx)
        · exact Or.inr (by simpa using hx)
      have hbe : b = e := by
        have h1 : b.1 < b.2 := hwf b (List.getElem?_mem hb)
        have h2 : e.1 < e.2 := hwf e (List.getElem?_mem hk)
        rcases hij with ⟨h5, h6⟩ | ⟨h5, h6⟩ <;> rcases hmatch with ⟨h7, h8⟩ | ⟨h7, h8⟩ <;>
          (apply Prod.ext <;> omega)
      rw [hbe, ← hk] at hb
      have : m = k := List.getElem?_inj (by omega) hnd hb
      omega
    have := findIdx?_first _ es k 0 e hk h0 hmin
    simpa using this
  simp only [edge_operator_aij]
  rw [aij_z_spec, hfind]
  have hz : (fun f => decide (((f.1 = i ∧ f.2 < j) ∨ (f.2 = i ∧ f.1 < j)) ∨
      ((f.1 = j ∧ f.2 < i) ∨ (f.2 = j ∧ f.1 < i)))) =
      (fun f => decide (((f.1 = i ∨ f.2 = i) ∧ otherEnd f i < j) ∨
        ((f.1 = j ∨ f.2 = j) ∧ otherEnd f j < i))) :=
    funext fun f => aij_zbit_claim i j f
  rw [hz]
  have hgetd : (some k).getD (es.length - 1) = k := rfl
  rw [hgetd, setTrue_replicate_eq_map es.length k hklen]

/-- C1 counterexample: on the complete 4-mode graph the claim's stated value
for `A(2,3)` — `X` at qubit 5 with `Z` at qubits 1 and 3 only — is not what
the code computes (the code also sets `Z` at qubits 2 and 4, the edges
`(0,3)` and `(1,3)` incident to mode 3 with other endpoint below 2). -/
theorem aij_K4_23_claim_false :
    edge_operator_aij K4edges 2 3 ≠
      [⟨1, [false, true, false, true, false, false],
        [false, false, false, false, false, true]⟩] := by
  decide

/-- Witness for C1: the general characterization applied to the complete
4-mode graph at edge `(2,3)`, qubit position 5. -/
theorem aij_edge_operator_spec_witness :
    edge_operator_aij K4edges 2 3 =
      [⟨1,
        K4edges.map fun f => decide (((f.1 = 2 ∨ f.2 = 2) ∧ otherEnd f 2 < 3) ∨
          ((f.1 = 3 ∨ f.2 = 3) ∧ otherEnd f 3 < 2)),
        (List.range K4edges.length).map fun m => decide (m = 5)⟩] :=
  aij_edge_operator_spec.1 K4edges 2 3 5 (2, 3) (by decide) (by decide) (by decide)
    (by decide)

/-- C10: the raw `edge_operator_aij` is symmetric in its two mode arguments —
`A(i,j)` and `A(j,i)` compute the identical Pauli term for every edge list and
every pair of modes; the antisymmetry sign is applied only by callers, which
negate the result when the second argument is smaller than the first. -/
theorem aij_symmetric (es : List (Nat × Nat)) (i j : Nat) :
    edge_operator_aij es i j = edge_operator_aij es j i := by
  simp only [edge_operator_aij]
  have hx : (fun f : Nat × Nat => (i == f.1 && j == f.2) || (i == f.2 && j == f.1)) =
      (fun f : Nat × Nat => (j == f.1 && i == f.2) || (j == f.2 && i == f.1)) := by
    funext f
    cases h1 : (i == f.1) <;> cases h2 : (j == f.2) <;> cases h3 : (i == f.2) <;>
      cases h4 : (j == f.1) <;> simp [h1, h2, h3, h4]
  rw [hx, aij_z_spec, aij_z_spec]
  have hz : (fun e : Nat × Nat => decide (((e.1 = i ∧ e.2 < j) ∨ (e.2 = i ∧ e.1 < j)) ∨
      ((e.1 = j ∧ e.2 < i) ∨ (e.2 = j ∧ e.1 < i)))) =
      (fun e : Nat × Nat => decide (((e.1 = j ∧ e.2 < i) ∨ (e.2 = j ∧ e.1 < i)) ∨
        ((e.1 = i ∧ e.2 < j) ∨ (e.2 = i ∧ e.1 < j)))) := by
    funext e
    rw [decide_eq_decide]
    tauto
  rw [hz]

theorem matEntry_eq (m : List (List Bool)) (r c : Nat) :
    matEntry m r c = ((m[r]?.getD [])[c]?).getD false := by
  unfold matEntry
  rw [List.getD_eq_getElem?_getD, List.getD_eq_getElem?_getD]

theorem matEntry_replicate (L r c : Nat) :
    matEntry (List.replicate L (List.replicate L false)) r c = false := by
  rw [matEntry_eq, List.getElem?_replicate]
  by_cases hr : r < L
  · rw [if_pos hr]
    simp only [Option.getD_some, List.getElem?_replicate]
    split_ifs <;> rfl
  · rw [if_neg hr]
    simp

theorem matEntry_setMat (m : List (List Bool)) (a b r c : Nat)
    (h : matEntry (setMat m a b) r c = true) :
    (r = a ∧ c = b) ∨ matEntry m r c = true := by
  rw [matEntry_eq, setMat, List.getElem?_set] at h
  rw [matEntry_eq]
  by_cases har : a = r
  · subst har
    by_cases hal : a < m.length
    · rw [if_pos rfl, if_pos hal] at h
      simp only [Option.getD_some] at h
      rw [List.getElem?_set] at h
      by_cases hbc : b = c
      · exact Or.inl ⟨rfl, hbc.symm⟩
      · rw [if_neg hbc] at h
        rw [List.getD_eq_getElem?_getD] at h
        exact Or.inr h
    · rw [if_pos rfl, if_neg hal] at h
      simp at h
  · rw [if_neg har] at h
    exact Or.inr h

theorem setMat_idem (m : List (List Bool)) (r c : Nat) :
    setMat (setMat m r c) r c = setMat m r c := by
  by_cases hr : r < m.length
  · unfold setMat
    have hget : (m.set r ((m.getD r []).set c true)).getD r [] = (m.getD r []).set c true := by
      rw [List.getD_eq_getElem?_getD, List.getElem?_set, if_pos rfl, if_pos hr]
      rfl
    rw [hget, List.set_set, List.set_set]
  · have hsm : setMat m r c = m := by
      unfold setMat
      exact List.set_eq_of_length_le (by omega)
    rw [hsm]
    exact hsm

theorem add_one_edge_preserves (m m' : List (List Bool)) (i j : Nat)
    (h : _add_one_edge m i j = .ok m') (hm : UpperTri m) : UpperTri m' := by
  unfold _add_one_edge at h
  split_ifs at h with h1 h2
  · cases h
    intro r c hrc
    rcases matEntry_setMat m i j r c hrc with ⟨rfl, rfl⟩ | hold
    · exact h1
    · exact hm r c hold
  · cases h
    intro r c hrc
    rcases matEntry_setMat m j i r c hrc with ⟨rfl, rfl⟩ | hold
    · exact h2
    · exact hm r c hold

theorem exbind_ok {α β : Type} (a : α) (f : α → Except String β) :
    (Except.ok a >>= f) = f a := rfl

theorem exbind_err {α β : Type} (e : String) (f : α → Except String β) :
    ((Except.error e : Except String α) >>= f) = Except.error e := rfl

theorem exmap_ok {α β : Type} (f : α → β) (a : α) :
    Except.map f (Except.ok a : Except String α) = Except.ok (f a) := rfl

theorem exmap_err {α β : Type} (f : α → β) (e : String) :
    Except.map f (Except.error e : Except String α) = Except.error e := rfl

theorem add_edges_for_term_preserves (m m' : List (List Bool)) (t : List Char)
    (h : _add_edges_for_term m t = .ok m') (hm : UpperTri m) : UpperTri m' := by
  unfold _add_edges_for_term at h
  cases hu : _unpack_term t false with
  | error e =>
    rw [hu, exbind_err] at h
    exact absurd h (by simp)
  | ok r =>
    simp only [hu, exbind_ok] at h
    cases hi : _interaction_type r.1.1 r.1.2.1 r.1.2.2 with
    | error e =>
      rw [hi, exbind_err] at h
      exact absurd h (by simp)
    | ok ttype =>
      simp only [hi, exbind_ok] at h
      split_ifs at h
      · split at h
        · exact add_one_edge_preserves _ _ _ _ h hm
        · exact absurd h (by simp)
      · split at h
        · rename_i a b c d heq1 heq2
          cases ha : _add_one_edge m a b with
          | error e =>
            rw [ha, exbind_err] at h
            exact absurd h (by simp)
          | ok mm =>
            simp only [ha, exbind_ok] at h
            exact add_one_edge_preserves mm m' c d h (add_one_edge_preserves m mm a b ha hm)
        · exact absurd h (by simp)
      · cases h
        exact hm

theorem foldlM_preserves (terms : List (List Char)) :
    ∀ m m', List.foldlM _add_edges_for_term m terms = .ok m' → UpperTri m → UpperTri m' := by
  induction terms with
  | nil =>
    intro m m' h hm
    rw [List.foldlM_nil] at h
    cases h
    exact hm
  | cons t ts ih =>
    intro m m' h hm
    rw [List.foldlM_cons] at h
    cases ha : _add_edges_for_term m t with
    | error e =>
      rw [ha, exbind_err] at h
      exact absurd h (by simp)
    | ok m1 =>
      simp only [ha, exbind_ok] at h
      exact ih m1 m' h (add_edges_for_term_preserves m m1 t ha hm)

theorem colsAux_ge (row : List Bool) : ∀ c x, x ∈ colsAux c row → c ≤ x := by
  induction row with
  | nil => intro c x h; simp [colsAux] at h
  | cons b bs ih =>
    intro c x h
    cases hb : b
    · rw [colsAux, hb] at h
      simp only [Bool.false_eq_true, if_false] at h
      have := ih (c + 1) x h
      omega
    · rw [colsAux, hb] at h
      simp only [if_true] at h
      rcases List.mem_cons.mp h with rfl | h2
      · omega
      · have := ih (c + 1) x h2
        omega

theorem colsAux_nodup (row : List Bool) : ∀ c, (colsAux c row).Nodup := by
  induction row with
  | nil => intro c; simp [colsAux]
  | cons b bs ih =>
    intro c
    cases hb : b
    · rw [colsAux]
      simpa using ih (c + 1)
    · rw [colsAux]
      rw [if_pos rfl, List.nodup_cons]
      refine ⟨fun hmem => ?_, ih (c + 1)⟩
      have := colsAux_ge bs (c + 1) c hmem
      omega

theorem colsAux_mem (row : List Bool) : ∀ c x, x ∈ colsAux c row →
    ∃ d, row[d]? = some true ∧ x = c + d := by
  induction row with
  | nil => intro c x h; simp [colsAux] at h
  | cons b bs ih =>
    intro c x h
    cases hb : b
    · rw [colsAux, hb] at h
      simp only [Bool.false_eq_true, if_false] at h
      rcases ih (c + 1) x h with ⟨d, h1, h2⟩
      exact ⟨d + 1, by simpa using h1, by omega⟩
    · rw [colsAux, hb] at h
      simp only [if_true] at h
      rcases List.mem_cons.mp h with rfl | h2
      · exact ⟨0, by simp [hb], by omega⟩
      · rcases ih (c + 1) x h2 with ⟨d, h1, h2⟩
        exact ⟨d + 1, by simpa using h1, by omega⟩

theorem edgesAux_mem (m : List (List Bool)) : ∀ r e, e ∈ edgesAux r m →
    ∃ d row, m[d]? = some row ∧ e.1 = r + d ∧ row[e.2]? = some true := by
  induction m with
  | nil => intro r e h; simp [edgesAux] at h
  | cons row rest ih =>
    intro r e h
    rw [edgesAux] at h
    rcases List.mem_append.mp h with h1 | h1
    · rcases List.mem_map.mp h1 with ⟨x, hx, rfl⟩
      rcases colsAux_mem row 0 x hx with ⟨d, hd1, hd2⟩
      refine ⟨0, row, by simp, by simp, ?_⟩
      have : x = d := by omega
      rw [this]
      exact hd1
    · rcases ih (r + 1) e h1 with ⟨d, row2, h2, h3, h4⟩
      exact ⟨d + 1, row2, by simpa using h2, by omega, h4⟩

theorem edgesAux_fst_ge (m : List (List Bool)) (r : Nat) (e : Nat × Nat)
    (h : e ∈ edgesAux r m) : r ≤ e.1 := by
  rcases edgesAux_mem m r e h with ⟨d, row, _, h2, _⟩
  omega

theorem edgesAux_nodup (m : List (List Bool)) : ∀ r, (edgesAux r m).Nodup := by
  induction m with
  | nil => intro r; simp [edgesAux]
  | cons row rest ih =>
    intro r
    rw [edgesAux, List.nodup_append]
    refine ⟨?_, ih (r + 1), ?_⟩
    · refine (colsAux_nodup row 0).map ?_
      intro x y hxy
      injection hxy
    · intro e he1 he2
      rcases List.mem_map.mp he1 with ⟨c, hc, rfl⟩
      have := edgesAux_fst_ge rest (r + 1) (r, c) he2
      simp at this

/-- C9: the edge list built from a fermionic operator's terms has no duplicate
edges and every edge `(a,b)` in it satisfies `a < b`; `_add_one_edge` between
a mode and itself is a fatal error; and inserting the same unordered edge
twice (in either argument order) leaves the adjacency matrix unchanged. -/
theorem bksf_edge_list_invariants :
    (∀ (terms : List (List Char)) (edges : List (Nat × Nat)),
        bksf_edge_list_fermionic_op terms = .ok edges →
        edges.Nodup ∧ ∀ e ∈ edges, e.1 < e.2) ∧
    (∀ (m : List (List Bool)) (i : Nat), _add_one_edge m i i = .error "expecting i != j") ∧
    (∀ (m m' : List (List Bool)) (i j : Nat), i ≠ j → _add_one_edge m i j = .ok m' →
        _add_one_edge m' i j = .ok m' ∧ _add_one_edge m' j i = .ok m') := by
  refine ⟨?_, ?_, ?_⟩
  · intro terms edges h
    unfold bksf_edge_list_fermionic_op at h
    cases ha : _get_adjacency_matrix terms with
    | error e =>
      rw [ha, exmap_err] at h
      exact absurd h (by simp)
    | ok m =>
      rw [ha, exmap_ok] at h
      have hedges : edgesOf m = edges := by cases h; rfl
      subst hedges
      have hm : UpperTri m := by
        unfold _get_adjacency_matrix at ha
        refine foldlM_preserves terms _ m ha ?_
        intro r c hrc
        rw [matEntry_replicate] at hrc
        exact absurd hrc (by simp)
      refine ⟨edgesAux_nodup m 0, ?_⟩
      intro e he
      rcases edgesAux_mem m 0 e he with ⟨d, row, h1, h2, h3⟩
      apply hm e.1 e.2
      rw [matEntry_eq]
      have hd : e.1 = d := by omega
      rw [hd, h1]
      simp only [Option.getD_some]
      rw [h3]
      rfl
  · intro m i
    unfold _add_one_edge
    rw [if_neg (by omega), if_neg (by omega)]
  · intro m m' i j hij h
    unfold _add_one_edge at h ⊢
    rcases Nat.lt_or_ge i j with hlt | hge
    · rw [if_pos hlt] at h
      cases h
      constructor
      · rw [if_pos hlt, setMat_idem]
      · rw [if_neg (by omega), if_pos hlt, setMat_idem]
    · have hlt : j < i := by omega
      rw [if_neg (by omega), if_pos hlt] at h
      cases h
      constructor
      · rw [if_neg (by omega), if_pos hlt, setMat_idem]
      · rw [if_pos hlt, setMat_idem]

/-- Witness for C9: the edge list of the single term `"+-+-"` is
`[(0,2),(1,3)]` — duplicate-free with ascending endpoints — the self-edge
insertion errors, and re-inserting the `(0,1)` edge in either order is a
no-op. -/
theorem bksf_edge_list_invariants_witness :
    (([(0, 2), (1, 3)] : List (Nat × Nat)).Nodup ∧
      ∀ e ∈ ([(0, 2), (1, 3)] : List (Nat × Nat)), e.1 < e.2) ∧
    _add_one_edge [[false]] 0 0 = .error "expecting i != j" ∧
    (_add_one_edge [[false, true], [false, false]] 0 1 =
        .ok [[false, true], [false, false]] ∧
      _add_one_edge [[false, true], [false, false]] 1 0 =
        .ok [[false, true], [false, false]]) :=
  ⟨bksf_edge_list_invariants.1 [['+', '-', '+', '-']] [(0, 2), (1, 3)] (by rfl),
    bksf_edge_list_invariants.2.1 [[false]] 0,
    bksf_edge_list_invariants.2.2 [[false, false], [false, false]]
      [[false, true], [false, false]] 0 1 (by decide) (by rfl)⟩

theorem unpackAux_ok (expand : Bool) (t : List Char) : ∀ i r,
    unpackAux expand i t = .ok r → r = (countsOf t, facsOf expand i t) := by
  induction t with
  | nil =>
    intro i r h
    rw [unpackAux] at h
    cases h
    rfl
  | cons c rest ih =>
    intro i r h
    rw [unpackAux] at h
    by_cases h1 : c = 'I'
    · rw [if_pos h1] at h
      rw [ih (i + 1) r h, h1]
      simp [countsOf, facsOf]
    · rw [if_neg h1] at h
      by_cases h2 : c = '+'
      · rw [if_pos h2] at h
        cases hrec : unpackAux expand (i + 1) rest with
        | error e => rw [hrec, exmap_err] at h; exact absurd h (by simp)
        | ok r2 =>
          rw [hrec, exmap_ok] at h
          cases h
          rw [ih (i + 1) r2 hrec, h2]
          simp [countsOf, facsOf]
      · rw [if_neg h2] at h
        by_cases h3 : c = '-'
        · rw [if_pos h3] at h
          cases hrec : unpackAux expand (i + 1) rest with
          | error e => rw [hrec, exmap_err] at h; exact absurd h (by simp)
          | ok r2 =>
            rw [hrec, exmap_ok] at h
            cases h
            rw [ih (i + 1) r2 hrec, h3]
            simp [countsOf, facsOf]
        · rw [if_neg h3] at h
          by_cases h4 : c = 'N'
          · rw [if_pos h4] at h
            cases hrec : unpackAux expand (i + 1) rest with
            | error e => rw [hrec, exmap_err] at h; exact absurd h (by simp)
            | ok r2 =>
              rw [hrec, exmap_ok] at h
              cases h
              rw [ih (i + 1) r2 hrec, h4]
              simp [countsOf, facsOf]
          · rw [if_neg h4] at h
            exact absurd h (by simp)

theorem countsOf_counts (t : List Char) :
    countsOf t = (t.count 'N', t.count '+', t.count '-') := by
  induction t with
  | nil => rfl
  | cons c rest ih =>
    by_cases h1 : c = '+'
    · subst h1; simp [countsOf, ih, List.count_cons]
    · by_cases h2 : c = '-'
      · subst h2; simp [countsOf, ih, List.count_cons]
      · by_cases h3 : c = 'N'
        · subst h3; simp [countsOf, ih, List.count_cons]
        · simp [countsOf, ih, List.count_cons, h1, h2, h3]

theorem facsOf_modes_ge (expand : Bool) (t : List Char) : ∀ i f,
    f ∈ facsOf expand i t → i ≤ f.1 := by
  induction t with
  | nil => intro i f h; rw [facsOf] at h; simp at h
  | cons c rest ih =>
    intro i f h
    rw [facsOf] at h
    by_cases h1 : c = 'I'
    · rw [if_pos h1] at h
      have := ih (i + 1) f h
      omega
    · rw [if_neg h1] at h
      by_cases h2 : c = '+'
      · rw [if_pos h2] at h
        rcases List.mem_cons.mp h with rfl | h5
        · simp
        · have := ih (i + 1) f h5
          omega
      · rw [if_neg h2] at h
        by_cases h3 : c = '-'
        · rw [if_pos h3] at h
          rcases List.mem_cons.mp h with rfl | h5
          · simp
          · have := ih (i + 1) f h5
            omega
        · rw [if_neg h3] at h
          by_cases h4 : c = 'N'
          · rw [if_pos h4] at h
            by_cases he : expand = true
            · rw [if_pos he] at h
              rcases List.mem_cons.mp h with rfl | h5
              · simp
              · rcases List.mem_cons.mp h5 with rfl | h6
                · simp
                · have := ih (i + 1) f h6
                  omega
            · rw [if_neg he] at h
              rcases List.mem_cons.mp h with rfl | h5
              · simp
              · have := ih (i + 1) f h5
                omega
          · rw [if_neg h4] at h
            have := ih (i + 1) f h
            omega

theorem facsOf_head_flip (t : List Char) : ∀ i, 'N' ∉ t → ('+' ∈ t ∨ '-' ∈ t) →
    ∃ m k fs fs2, facsOf true i t = (m, k) :: fs ∧
      facsOf true i (conj_label t) = (m, flipc k) :: fs2 ∧ (k = '+' ∨ k = '-') := by
  induction t with
  | nil => intro i hN hl; simp at hl
  | cons c rest ih =>
    intro i hN hl
    by_cases h2 : c = '+'
    · subst h2
      exact ⟨i, '+', facsOf true (i + 1) rest, facsOf true (i + 1) (conj_label rest),
        by simp [facsOf], by simp [facsOf, conj_label, flipc], Or.inl rfl⟩
    · by_cases h3 : c = '-'
      · subst h3
        exact ⟨i, '-', facsOf true (i + 1) rest, facsOf true (i + 1) (conj_label rest),
          by simp [facsOf], by simp [facsOf, conj_label, flipc], Or.inr rfl⟩
      · have hN2 : c ≠ 'N' := fun hh => hN (hh ▸ List.mem_cons_self _ _)
        have hNrest : 'N' ∉ rest := fun hh => hN (List.mem_cons_of_mem _ hh)
        have hlrest : '+' ∈ rest ∨ '-' ∈ rest := by
          rcases hl with hh | hh
          · rcases List.mem_cons.mp hh with hc | hc
            · exact absurd hc.symm h2
            · exact Or.inl hc
          · rcases List.mem_cons.mp hh with hc | hc
            · exact absurd hc.symm h3
            · exact Or.inr hc
        have hflip : flipc c = c := by
          unfold flipc
          rw [if_neg h2, if_neg h3]
        have hconj : conj_label (c :: rest) = c :: conj_label rest := by
          show flipc c :: conj_label rest = c :: conj_label rest
          rw [hflip]
        rcases ih (i + 1) hNrest hlrest with ⟨m, k, fs, fs2, ha, hb, hk⟩
        by_cases h1 : c = 'I'
        · refine ⟨m, k, fs, fs2, ?_, ?_, hk⟩
          · rw [facsOf, if_pos h1]
            exact ha
          · rw [hconj, facsOf, if_pos h1]
            exact hb
        · refine ⟨m, k, fs, fs2, ?_, ?_, hk⟩
          · rw [facsOf, if_neg h1, if_neg h2, if_neg h3, if_neg hN2]
            exact ha
          · rw [hconj, facsOf, if_neg h1, if_neg h2, if_neg h3, if_neg hN2]
            exact hb

theorem convert_skips_minus (i : Nat) (fs : List (Nat × Char)) :
    _convert_skips ((i, '-') :: fs) = true := by
  simp [_convert_skips]

theorem convert_skips_plus (i : Nat) (fs : List (Nat × Char)) (h : ∀ f ∈ fs, i < f.1) :
    _convert_skips ((i, '+') :: fs) = false := by
  cases fs with
  | nil => simp [_convert_skips]
  | cons f1 rest2 =>
    have hne : i ≠ f1.1 := by
      have := h f1 (List.mem_cons_self _ _)
      omega
    simp [_convert_skips, hne]

theorem convert_skips_numberlead (i m : Nat) (k : Char) (fs : List (Nat × Char)) :
    _convert_skips ((i, '+') :: (i, '-') :: (m, k) :: fs) = decide (k = '-') := by
  simp [_convert_skips]

theorem skip_flip (t : List Char) : ∀ i, countsOf t ∈ validRows → ('+' ∈ t ∨ '-' ∈ t) →
    _convert_skips (facsOf true i t) =
      !(_convert_skips (facsOf true i (conj_label t))) := by
  induction t with
  | nil => intro i hrow hl; simp at hl
  | cons c rest ih =>
    intro i hrow hl
    by_cases h2 : c = '+'
    · subst h2
      rw [show conj_label ('+' :: rest) = '-' :: conj_label rest from rfl]
      rw [show facsOf true i ('+' :: rest) = (i, '+') :: facsOf true (i + 1) rest from by
        simp [facsOf]]
      rw [show facsOf true i ('-' :: conj_label rest) =
          (i, '-') :: facsOf true (i + 1) (conj_label rest) from by simp [facsOf]]
      rw [convert_skips_minus, convert_skips_plus]
      · rfl
      · intro f hf
        have := facsOf_modes_ge true rest (i + 1) f hf
        omega
    · by_cases h3 : c = '-'
      · subst h3
        rw [show conj_label ('-' :: rest) = '+' :: conj_label rest from rfl]
        rw [show facsOf true i ('-' :: rest) = (i, '-') :: facsOf true (i + 1) rest from by
          simp [facsOf]]
        rw [show facsOf true i ('+' :: conj_label rest) =
            (i, '+') :: facsOf true (i + 1) (conj_label rest) from by simp [facsOf]]
        rw [convert_skips_minus, convert_skips_plus]
        · rfl
        · intro f hf
          have := facsOf_modes_ge true (conj_label rest) (i + 1) f hf
          omega
      · by_cases h4 : c = 'N'
        · subst h4
          have hlrest : '+' ∈ rest ∨ '-' ∈ rest := by
            rcases hl with hh | hh
            · rcases List.mem_cons.mp hh with hc | hc
              · exact absurd hc (by decide)
              · exact Or.inl hc
            · rcases List.mem_cons.mp hh with hc | hc
              · exact absurd hc (by decide)
              · exact Or.inr hc
          have hNrest : 'N' ∉ rest := by
            have hpm : 0 < rest.count '+' + rest.count '-' := by
              rcases hlrest with hh | hh
              · have := List.count_pos_iff.mpr hh
                omega
              · have := List.count_pos_iff.mpr hh
                omega
            have hrow2 := hrow
            rw [show countsOf ('N' :: rest) =
                ((countsOf rest).1 + 1, (countsOf rest).2.1, (countsOf rest).2.2) from by
              simp [countsOf]] at hrow2
            rw [countsOf_counts rest] at hrow2
            simp only [validRows, List.mem_cons, List.mem_singleton, Prod.mk.injEq,
              List.not_mem_nil, or_false] at hrow2
            apply List.count_eq_zero.mp
            rcases hrow2 with h | h | h | h | h <;> omega
          rcases facsOf_head_flip rest (i + 1) hNrest hlrest with ⟨m, k, fs, fs2, ha, hb, hk⟩
          rw [show conj_label ('N' :: rest) = 'N' :: conj_label rest from rfl]
          rw [show facsOf true i ('N' :: rest) =
              (i, '+') :: (i, '-') :: facsOf true (i + 1) rest from by simp [facsOf]]
          rw [show facsOf true i ('N' :: conj_label rest) =
              (i, '+') :: (i, '-') :: facsOf true (i + 1) (conj_label rest) from by
            simp [facsOf]]
          rw [ha, hb, convert_skips_numberlead, convert_skips_numberlead]
          rcases hk with rfl | rfl
          · simp [flipc]
          · simp [flipc]
        · have hlrest : '+' ∈ rest ∨ '-' ∈ rest := by
            rcases hl with hh | hh
            · rcases List.mem_cons.mp hh with hc | hc
              · exact absurd hc.symm h2
              · exact Or.inl hc
            · rcases List.mem_cons.mp hh with hc | hc
              · exact absurd hc.symm h3
              · exact Or.inr hc
          have hrowrest : countsOf rest ∈ validRows := by
            have hcc : countsOf (c :: rest) = countsOf rest := by
              simp [countsOf, h2, h3, h4]
            rw [← hcc]
            exact hrow
          have hflip : flipc c = c := by
            unfold flipc
            rw [if_neg h2, if_neg h3]
          rw [show conj_label (c :: rest) = flipc c :: conj_label rest from rfl, hflip]
          by_cases h1 : c = 'I'
          · rw [show facsOf true i (c :: rest) = facsOf true (i + 1) rest from by
              rw [facsOf, if_pos h1]]
            rw [show facsOf true i (c :: conj_label rest) =
                facsOf true (i + 1) (conj_label rest) from by rw [facsOf, if_pos h1]]
            exact ih (i + 1) hrowrest hlrest
          · rw [show facsOf true i (c :: rest) = facsOf true (i + 1) rest from by
              rw [facsOf, if_neg h1, if_neg h2, if_neg h3, if_neg h4]]
            rw [show facsOf true i (c :: conj_label rest) =
                facsOf true (i + 1) (conj_label rest) from by
              rw [facsOf, if_neg h1, if_neg h2, if_neg h3, if_neg h4]]
            exact ih (i + 1) hrowrest hlrest

theorem convert_skips_iff (facs : List (Nat × Char)) :
    _convert_skips facs = true ↔ skipClaimProp facs := by
  rcases facs with _ | ⟨f0, _ | ⟨f1, _ | ⟨f2, rest⟩⟩⟩
  · simp [_convert_skips, skipClaimProp]
  · by_cases h : f0.2 = '-' <;> simp [_convert_skips, skipClaimProp, h]
  · by_cases h : f0.2 = '-'
    · simp [_convert_skips, skipClaimProp, h]
    · by_cases h2 : f0.1 = f1.1 <;> simp [_convert_skips, skipClaimProp, h, h2]
  · by_cases h : f0.2 = '-'
    · simp [_convert_skips, skipClaimProp, h]
    · by_cases h2 : f0.1 = f1.1 <;> by_cases h3 : f2.2 = '-' <;>
        simp [_convert_skips, skipClaimProp, h, h2, h3]

theorem analyze_term_facs (t : List Char) (ttype : String) (facs : List (Nat × Char))
    (h : _analyze_term t = .ok (ttype, facs)) : facs = facsOf true 0 t := by
  unfold _analyze_term at h
  cases hu : _unpack_term t true with
  | error e =>
    rw [hu, exbind_err] at h
    exact absurd h (by simp)
  | ok r =>
    have hr : r = (countsOf t, facsOf true 0 t) := unpackAux_ok true t 0 r hu
    simp only [hu, exbind_ok] at h
    cases hi : _interaction_type r.1.1 r.1.2.1 r.1.2.2 with
    | error e =>
      rw [hi, exbind_err] at h
      exact absurd h (by simp)
    | ok tt =>
      simp only [hi, exbind_ok] at h
      have hp : (tt, r.2) = (ttype, facs) := by
        cases h
        rfl
      have h2 : r.2 = facs := congrArg Prod.snd hp
      rw [← h2, hr]

/-- C6: in the term-conversion loop a term is skipped exactly when its first
expanded factor is a lowering operator, or its first two expanded factors
share a mode index and there are more than two factors and the third is a
lowering operator; consequently, for a valid one- or two-body term containing
a ladder operator, exactly one member of a Hermitian-conjugate pair is
skipped, so the pair contributes exactly once. -/
theorem convert_loop_skip_spec :
    ∀ (t : List Char) (ttype : String) (facs : List (Nat × Char)),
      _analyze_term t = .ok (ttype, facs) →
      ((_convert_skips facs = true ↔ skipClaimProp facs) ∧
        (countsOf t ∈ validRows → ('+' ∈ t ∨ '-' ∈ t) →
          ∀ (ttypeC : String) (facsC : List (Nat × Char)),
            _analyze_term (conj_label t) = .ok (ttypeC, facsC) →
            (_convert_skips facs = true ↔ ¬(_convert_skips facsC = true)))) := by
  intro t ttype facs h
  refine ⟨convert_skips_iff facs, ?_⟩
  intro hrow hl ttypeC facsC hC
  rw [analyze_term_facs t ttype facs h, analyze_term_facs (conj_label t) ttypeC facsC hC]
  rw [skip_flip t 0 hrow hl]
  cases _convert_skips (facsOf true 0 (conj_label t)) <;> simp

/-- Witness for C6 at the excitation term `"+-"`: the term itself is
converted, its Hermitian conjugate `"-+"` is skipped. -/
theorem convert_loop_skip_spec_witness :
    (_convert_skips [(0, '+'), (1, '-')] = true ↔ skipClaimProp [(0, '+'), (1, '-')]) ∧
    (_convert_skips [(0, '+'), (1, '-')] = true ↔
      ¬(_convert_skips [(0, '-'), (1, '+')] = true)) := by
  have h := convert_loop_skip_spec ['+', '-'] "excitation" [(0, '+'), (1, '-')] (by rfl)
  exact ⟨h.1, h.2 (by decide) (Or.inl (by decide)) "excitation" [(0, '-'), (1, '+')] (by rfl)⟩
